import Mathlib

/-!
Shallow embedding of `src/project.py` (class `PriceMachine`), a price-list
ingestion, search and HTML-export tool.

Modelling conventions:
* Python `float` values are modelled as exact rationals `ℚ`; the numeric
  literal parser `parseFloat?` models Python's `float(str)` on plain decimal
  strings (optional surrounding spaces, optional sign, digits with at most
  one decimal point), returning `none` where `float` raises `ValueError`.
* A CSV row read by `csv.DictReader` is a `List String`; a cell missing
  because the row is shorter than the header row is `row.get? i = none`
  (DictReader fills missing fields with `None`).  Header names are assumed
  distinct, so `row[headers[i]]` is cell `i`.
* Python exceptions raised inside the per-file loop are modelled with
  `Except PyErr`; the `except` around each file swallows them, which is why
  `processRows` stops at the first failing row and keeps earlier records.
* `sorted(..., key=...)` is a stable sort; it is modelled by the stable
  insertion sort `insertionSortB`.
* Lower-casing (`str.lower`) is modelled for the character ranges that occur
  in the program: ASCII letters and the Cyrillic alphabet.
-/

/-- Is `c` an ASCII digit character. -/
def isDigitCh (c : Char) : Bool := '0' ≤ c && c ≤ '9'

/-- Value of a list of ASCII digit characters, most significant first. -/
def digitsToNat (cs : List Char) : ℕ :=
  cs.foldl (fun a c => 10 * a + (c.toNat - 48)) 0

/-- Model of Python `float(s)` restricted to plain decimal literals:
optional surrounding spaces, an optional sign, then digits with at most one
decimal point (at least one digit overall).  Returns `none` where `float`
raises `ValueError`.  (Exponents, `inf`/`nan` and digit underscores, which
never occur in the claims' inputs, are not modelled.) -/
def parseFloat? (s : String) : Option ℚ :=
  let cs := ((s.data.dropWhile (fun c => c == ' ')).reverse.dropWhile
    (fun c => c == ' ')).reverse
  let neg : Bool := match cs with
    | '-' :: _ => true
    | _ => false
  let cs2 := match cs with
    | '-' :: t => t
    | '+' :: t => t
    | t => t
  let ip := cs2.takeWhile isDigitCh
  let rest := cs2.dropWhile isDigitCh
  let signed : ℤ → ℤ := fun n => if neg then -n else n
  match rest with
  | [] =>
      if ip.isEmpty then none
      else some (mkRat (signed (digitsToNat ip)) 1)
  | '.' :: fr =>
      if fr.all isDigitCh && !(ip.isEmpty && fr.isEmpty) then
        some (mkRat (signed (digitsToNat ip * 10 ^ fr.length + digitsToNat fr))
          (10 ^ fr.length))
      else none
  | _ => none

/-- Model of Python `str.lower` for one character: ASCII `A`–`Z` and the
Cyrillic range `А`–`Я` map down by 32 code points, `Ё` maps to `ё`;
everything else is unchanged (sufficient for the program's data). -/
def pyLowerChar (c : Char) : Char :=
  if 'A' ≤ c ∧ c ≤ 'Z' then Char.ofNat (c.toNat + 32)
  else if 0x410 ≤ c.toNat ∧ c.toNat ≤ 0x42F then Char.ofNat (c.toNat + 32)
  else if c.toNat = 0x401 then Char.ofNat 0x451
  else c

/-- Model of Python `str.lower`. -/
def pyLower (s : String) : String := ⟨s.data.map pyLowerChar⟩

/-- `startsWithL n h`: the char list `n` is an initial segment of `h`. -/
def startsWithL : List Char → List Char → Bool
  | [], _ => true
  | _ :: _, [] => false
  | a :: as, b :: bs => a == b && startsWithL as bs

/-- `containsSubL n h`: `n` occurs as a contiguous run inside `h`
(model of Python's `n in h` on strings). -/
def containsSubL (needle : List Char) : List Char → Bool
  | [] => startsWithL needle []
  | c :: t => startsWithL needle (c :: t) || containsSubL needle t

/-- String version of `containsSubL`: Python `needle in hay`. -/
def hasSubS (needle hay : String) : Bool := containsSubL needle.data hay.data

/-- Model of Python `str(x)` for `x` a string or `None`. -/
def pyStrOpt : Option String → String
  | none => "None"
  | some s => s

/-- Python truthiness of a string-or-`None` cell: `None` and `""` are falsy. -/
def truthyCell : Option String → Bool
  | none => false
  | some s => !(s == "")

/-- Python truthiness of a float-or-`None` value: `None` and `0.0` are falsy. -/
def truthyQ : Option ℚ → Bool
  | none => false
  | some q => !(q == 0)

/-! ## Header classifier (`_search_product_price_weight`, lines 94–119) -/

/-- Keywords for the product column (line 100). -/
def product_keywords : List String := ["товар", "название", "наименование", "продукт"]

/-- Keywords for the price column (line 101). -/
def price_keywords : List String := ["розница", "цена"]

/-- Keywords for the weight column (line 102). -/
def weight_keywords : List String := ["вес", "масса", "фасовка"]

/-- `any(keyword in header_lower for keyword in keywords)` for an
already-lower-cased header string. -/
def anyKw (kws : List String) (headerLower : String) : Bool :=
  kws.any (fun k => hasSubS k headerLower)

/-- Does the (raw) header match the role's keywords after lower-casing
(lines 111–112). -/
def matchesRole (kws : List String) (header : String) : Bool :=
  anyKw kws (pyLower header)

/-- The `for i, header in enumerate(headers)` loop of lines 110–117: each of
the three indices is overwritten whenever the current header matches the
corresponding keyword set. -/
def searchLoop : List String → ℕ → Option ℕ × Option ℕ × Option ℕ →
    Option ℕ × Option ℕ × Option ℕ
  | [], _, acc => acc
  | h :: t, i, acc =>
      let hl := pyLower h
      searchLoop t (i + 1)
        (if anyKw product_keywords hl then some i else acc.1,
         if anyKw price_keywords hl then some i else acc.2.1,
         if anyKw weight_keywords hl then some i else acc.2.2)

/-- `_search_product_price_weight(headers)`: returns the (product, price,
weight) column indices, `none` when no header matched. -/
def searchPPW (headers : List String) : Option ℕ × Option ℕ × Option ℕ :=
  searchLoop headers 0 (none, none, none)

/-- Index of the last element of `hs` matching `p`, counted from the front
(`none` when no element matches). -/
def lastIdxOf (p : String → Bool) : List String → Option ℕ
  | [] => none
  | h :: t =>
      match lastIdxOf p t with
      | some j => some (j + 1)
      | none => if p h then some 0 else none

/-- Modelled from the spec: assigns a role to the first header (in column
order) whose lower-cased text contains one of the role's keywords. -/
def firstMatchIdx (kws : List String) (headers : List String) : Option ℕ :=
  headers.findIdx? (fun h => matchesRole kws h)

/-! ## Records and per-row normalization (`load_prices`, lines 49–92) -/

/-- Python exceptions that the row-processing code can raise; all of them are
caught by the per-file `except` clause. -/
inductive PyErr where
  | valueError
  | typeError
  | attributeError
deriving DecidableEq

/-- One entry of `self.data` (the dict appended at lines 79–85).  `product`
and `price` hold the raw cell values (`none` models Python `None` for a field
missing from a short row); `weight` is the parsed `weight_kg`;
`price_per_kg` is the derived price per kilogram. -/
structure Record where
  product : Option String
  price : Option String
  weight : Option ℚ
  file : String
  price_per_kg : Option ℚ
deriving DecidableEq

/-- The raw weight cell of a row: `row[headers[weight_idx]] if weight_idx is
not None else None` (line 63). -/
def weightCell (wIdx : Option ℕ) (row : List String) : Option String :=
  wIdx.bind (fun i => row.get? i)

/-- `weight_kg` of a row (lines 66–71): parse the weight cell when it is
truthy; a `ValueError` from `float` is swallowed (`except ValueError: pass`). -/
def weightKg (wIdx : Option ℕ) (row : List String) : Option ℚ :=
  match weightCell wIdx row with
  | some s => if s == "" then none else parseFloat? s
  | none => none

/-- Division of rationals, written out on numerators and denominators so
that it evaluates by kernel reduction (`ratDiv_eq_div` below proves it equal
to ordinary division on ℚ); models Python float division at line 76. -/
def ratDiv (a b : ℚ) : ℚ :=
  if 0 ≤ b.num then mkRat (a.num * b.den) (a.den * b.num.natAbs)
  else mkRat (-(a.num * b.den)) (a.den * b.num.natAbs)

/-- Lines 59–85 for a single row: extract the product/price/weight cells,
derive `price_per_kg` and build the record.  `float(price)` at line 76 is
evaluated only when `weight_kg` is truthy and positive; a `None` price then
raises `TypeError` and an unparseable price raises `ValueError`, both
propagating to the per-file handler. -/
def processRow (pIdx prIdx : ℕ) (wIdx : Option ℕ) (row : List String)
    (fname : String) : Except PyErr Record :=
  let product := row.get? pIdx
  let price := row.get? prIdx
  let wkg := weightKg wIdx row
  match wkg with
  | some w =>
      if w == 0 then .ok ⟨product, price, wkg, fname, none⟩
      else if 0 < w then
        match price with
        | none => .error .typeError
        | some ps =>
            match parseFloat? ps with
            | none => .error .valueError
            | some pv => .ok ⟨product, price, wkg, fname, some (ratDiv pv w)⟩
      else .ok ⟨product, price, wkg, fname, none⟩
  | none => .ok ⟨product, price, wkg, fname, none⟩

/-- The `for row in reader` loop (lines 59–85): records are appended one by
one; the first row that raises stops the loop (the exception is caught by the
per-file `except`, so the records appended so far are kept). -/
def processRows (pIdx prIdx : ℕ) (wIdx : Option ℕ) (rows : List (List String))
    (fname : String) : List Record :=
  match rows with
  | [] => []
  | r :: t =>
      match processRow pIdx prIdx wIdx r fname with
      | .ok rec => rec :: processRows pIdx prIdx wIdx t fname
      | .error _ => []

/-- Does an `Except` value carry a result (no exception was raised). -/
def isOkE {ε α : Type} : Except ε α → Bool
  | .ok _ => true
  | .error _ => false

/-- A CSV price-list file as seen by the core: the header row read by
`csv.DictReader`, the data rows, and the base name of the file. -/
structure PriceFile where
  headers : List String
  rows : List (List String)
  name : String

/-- Lines 52–85 for one file: classify the headers; when both the product and
price roles are assigned, process the rows, otherwise contribute nothing. -/
def processFile (f : PriceFile) : List Record :=
  match searchPPW f.headers with
  | (some p, some pr, wI) => processRows p pr wI f.rows f.name
  | _ => []

/-- The catalog accumulated by the `for file_path in valid_files` loop
(lines 49–89), before the final sort. -/
def rawCatalog (files : List PriceFile) : List Record :=
  files.foldl (fun acc f => acc ++ processFile f) []

/-! ## Sorting (lines 92, 127, 185) -/

/-- Stable insertion of `a` into `l`: `a` goes before the first element `b`
with `le a b`. -/
def orderedInsertB {α : Type} (le : α → α → Bool) (a : α) : List α → List α
  | [] => [a]
  | b :: l => if le a b then a :: b :: l else b :: orderedInsertB le a l

/-- Stable insertion sort; models Python's (stable) `sorted`. -/
def insertionSortB {α : Type} (le : α → α → Bool) : List α → List α
  | [] => []
  | a :: l => orderedInsertB le a (insertionSortB le l)

/-- Order on sort keys, where `none` stands for `float('inf')`. -/
def extLE : Option ℚ → Option ℚ → Bool
  | _, none => true
  | none, some _ => false
  | some a, some b => a ≤ b

/-- The sort key of lines 92/127/185:
`x['price_per_kg'] if x['price_per_kg'] else float('inf')` — a falsy
`price_per_kg` (`None` or `0.0`) becomes `float('inf')`, modelled as `none`. -/
def recKey (r : Record) : Option ℚ :=
  match r.price_per_kg with
  | some q => if q == 0 then none else some q
  | none => none

/-- Comparison of two records by their sort keys. -/
def recLE (a b : Record) : Bool := extLE (recKey a) (recKey b)

/-- `sorted(data, key=lambda x: x['price_per_kg'] if x['price_per_kg'] else
float('inf'))`, as used at lines 92, 127 and 185. -/
def sortedView (data : List Record) : List Record := insertionSortB recLE data

/-- `load_prices`: the catalog after ingesting `files` and the final sort at
line 92. -/
def loadPrices (files : List PriceFile) : List Record :=
  sortedView (rawCatalog files)

/-- Adjacent-pairs chain check: is `l` ordered by `le`. -/
def chainLEB {α : Type} (le : α → α → Bool) : List α → Bool
  | [] => true
  | [_] => true
  | a :: b :: t => le a b && chainLEB le (b :: t)

/-! ## Search (`find_text`, lines 175–187) -/

/-- The filter predicate of line 181–182 on a record whose product field is a
string: case-insensitive containment of the query in the product, and the
lower-cased product must not contain "наименование".  (A record with a `None`
product never satisfies it: the code raises instead, see `findFilter`.) -/
def keepPred (q : String) (r : Record) : Bool :=
  match r.product with
  | some s => hasSubS (pyLower q) (pyLower s) && !(hasSubS "наименование" (pyLower s))
  | none => false

/-- A record that does not carry the defensive "наименование" exclusion. -/
def nonExcluded (r : Record) : Bool :=
  match r.product with
  | some s => !(hasSubS "наименование" (pyLower s))
  | none => false

/-- The list comprehension of lines 181–182.  The membership test
`text.lower() in str(item['product']).lower()` coerces the product with
`str`, but the short-circuited second test `'наименование' not in
item['product'].lower()` does not: when it is reached with a `None` product
it raises `AttributeError`. -/
def findFilter (q : String) : List Record → Except PyErr (List Record)
  | [] => .ok []
  | r :: t =>
      if hasSubS (pyLower q) (pyLower (pyStrOpt r.product)) then
        match r.product with
        | none => .error .attributeError
        | some s =>
            if hasSubS "наименование" (pyLower s) then findFilter q t
            else (findFilter q t).map (fun rest => r :: rest)
      else findFilter q t

/-- `find_text(text)`: filter the catalog, then sort the results with the
same key as line 92 (line 185). -/
def findText (q : String) (data : List Record) : Except PyErr (List Record) :=
  (findFilter q data).map sortedView

/-! ## Renderer (`export_to_html`, lines 121–173) -/

/-- ASCII digit character for `n % 10`. -/
def digitCh (n : ℕ) : Char := Char.ofNat (48 + n % 10)

/-- Model of `f"{q:.2f}"`: sign, integer part, a decimal point and exactly
two fractional digits.  `|q| * 100 = (|q.num| * 100) / q.den` is rounded to
the nearest integer `m` with ties to even, on plain natural-number
arithmetic so the kernel can evaluate it. -/
def formatFixed2 (q : ℚ) : String :=
  let m100 : ℕ := q.num.natAbs * 100
  let fl : ℕ := m100 / q.den
  let r : ℕ := m100 % q.den
  let m : ℕ :=
    if 2 * r < q.den then fl
    else if q.den < 2 * r then fl + 1
    else if fl % 2 = 0 then fl else fl + 1
  let fr : ℕ := m % 100
  ⟨(if q.num < 0 then ['-'] else []) ++ Nat.toDigits 10 (m / 100) ++
    ['.', digitCh (fr / 10), digitCh fr]⟩

/-- Line 151: `f"{price_per_kg:.2f}" if price_per_kg else 'N/A'` — a falsy
`price_per_kg` (`None` or `0.0`) renders as the sentinel. -/
def formatPpk (ppk : Option ℚ) : String :=
  match ppk with
  | some q => if q == 0 then "N/A" else formatFixed2 q
  | none => "N/A"

/-- The cells of one `<tr>` block of the exported table (lines 152–161),
keeping each cell's value; `num` is the 1-based row number. -/
structure HtmlRow where
  num : ℕ
  product : Option String
  price : Option String
  weight : Option ℚ
  file : String
  ppkCell : String
deriving DecidableEq

/-- Build the table row for one record. -/
def mkHtmlRow (n : ℕ) (r : Record) : HtmlRow :=
  ⟨n, r.product, r.price, r.weight, r.file, formatPpk r.price_per_kg⟩

/-- `enumerate(sorted_data, start=n)` over the loop body of lines 148–161. -/
def numberFrom (n : ℕ) : List Record → List HtmlRow
  | [] => []
  | r :: t => mkHtmlRow n r :: numberFrom (n + 1) t

/-- The data rows of the HTML table produced by `export_to_html`: one row per
record of the sorted catalog, numbered from 1 (line 148). -/
def exportRows (data : List Record) : List HtmlRow :=
  numberFrom 1 (sortedView data)

/-- Number of characters after the last `.` of `s` (counted from the right,
stopping at the first `.`). -/
def decimalsAfterDot (s : String) : ℕ :=
  (s.data.reverse.takeWhile (fun c => !(c == '.'))).length

/-! ## Concrete sample inputs used by counterexamples and witnesses -/

/-- A file whose first data row has an unparseable price together with a
positive weight, followed by a well-formed row. -/
def c2file : PriceFile :=
  ⟨["Наименование", "Цена", "Вес"], [["A", "abc", "2"], ["B", "5", "1"]], "price1.csv"⟩

/-- A file producing one record with `price_per_kg = 5` and one with
`price_per_kg = 0`. -/
def c3file : PriceFile :=
  ⟨["товар", "цена", "вес"], [["A", "10", "2"], ["B", "0", "2"]], "price2.csv"⟩

/-- A file whose only data row has an empty product cell. -/
def c4file : PriceFile :=
  ⟨["товар", "цена"], [["", "100"]], "price3.csv"⟩

/-- A file whose only data row has price `"0"` and weight `"2"`, so that
`price_per_kg` is present and equal to `0`. -/
def c5file : PriceFile :=
  ⟨["товар", "цена", "вес"], [["A", "0", "2"]], "price4.csv"⟩

/-- A file whose only data row is empty (shorter than the header row), so the
product and price cells are both `None`. -/
def c10file : PriceFile :=
  ⟨["товар", "цена"], [[]], "price5.csv"⟩

theorem searchLoop_fst (hs : List String) (i : ℕ)
    (acc : Option ℕ × Option ℕ × Option ℕ) :
    (searchLoop hs i acc).1 =
      (match lastIdxOf (matchesRole product_keywords) hs with
       | some j => some (i + j)
       | none => acc.1) := by
  induction hs generalizing i acc with
  | nil => simp [searchLoop, lastIdxOf]
  | cons h t ih =>
      simp only [searchLoop, lastIdxOf, ih]
      rcases hj : lastIdxOf (matchesRole product_keywords) t with _ | j
      · by_cases hm : anyKw product_keywords (pyLower h)
        · simp [hj, hm, matchesRole]
        · simp [hj, hm, matchesRole]
      · have harith : i + 1 + j = i + (j + 1) := by omega
        by_cases hm : matchesRole product_keywords h <;>
          simp [hj, hm, matchesRole, harith]

theorem searchLoop_snd (hs : List String) (i : ℕ)
    (acc : Option ℕ × Option ℕ × Option ℕ) :
    (searchLoop hs i acc).2.1 =
      (match lastIdxOf (matchesRole price_keywords) hs with
       | some j => some (i + j)
       | none => acc.2.1) := by
  induction hs generalizing i acc with
  | nil => simp [searchLoop, lastIdxOf]
  | cons h t ih =>
      simp only [searchLoop, lastIdxOf, ih]
      rcases hj : lastIdxOf (matchesRole price_keywords) t with _ | j
      · by_cases hm : anyKw price_keywords (pyLower h)
        · simp [hj, hm, matchesRole]
        · simp [hj, hm, matchesRole]
      · have harith : i + 1 + j = i + (j + 1) := by omega
        by_cases hm : matchesRole price_keywords h <;>
          simp [hj, hm, matchesRole, harith]

theorem searchLoop_trd (hs : List String) (i : ℕ)
    (acc : Option ℕ × Option ℕ × Option ℕ) :
    (searchLoop hs i acc).2.2 =
      (match lastIdxOf (matchesRole weight_keywords) hs with
       | some j => some (i + j)
       | none => acc.2.2) := by
  induction hs generalizing i acc with
  | nil => simp [searchLoop, lastIdxOf]
  | cons h t ih =>
      simp only [searchLoop, lastIdxOf, ih]
      rcases hj : lastIdxOf (matchesRole weight_keywords) t with _ | j
      · by_cases hm : anyKw weight_keywords (pyLower h)
        · simp [hj, hm, matchesRole]
        · simp [hj, hm, matchesRole]
      · have harith : i + 1 + j = i + (j + 1) := by omega
        by_cases hm : matchesRole weight_keywords h <;>
          simp [hj, hm, matchesRole, harith]

/-! ## Generic lemmas about the stable insertion sort -/

section SortLemmas

variable {α : Type} (le : α → α → Bool)

theorem orderedInsertB_nil (a : α) : orderedInsertB le a [] = [a] := rfl

theorem orderedInsertB_cons (a b : α) (l : List α) :
    orderedInsertB le a (b :: l) =
      if le a b then a :: b :: l else b :: orderedInsertB le a l := rfl

theorem orderedInsertB_perm (a : α) (l : List α) :
    (orderedInsertB le a l).Perm (a :: l) := by
  induction l with
  | nil => exact List.Perm.refl _
  | cons b t ih =>
      unfold orderedInsertB
      by_cases h : le a b
      · simp [h]
      · simp only [h, Bool.false_eq_true, if_false]
        exact (ih.cons b).trans (List.Perm.swap a b t)

theorem insertionSortB_perm (l : List α) : (insertionSortB le l).Perm l := by
  induction l with
  | nil => exact List.Perm.refl _
  | cons a t ih =>
      exact (orderedInsertB_perm le a (insertionSortB le t)).trans (ih.cons a)

theorem orderedInsertB_pairwise
    (htot : ∀ a b, le a b = true ∨ le b a = true)
    (htrans : ∀ a b c, le a b = true → le b c = true → le a c = true)
    (a : α) (l : List α) (hl : l.Pairwise (fun x y => le x y = true)) :
    (orderedInsertB le a l).Pairwise (fun x y => le x y = true) := by
  induction l with
  | nil => simp [orderedInsertB]
  | cons b t ih =>
      rw [List.pairwise_cons] at hl
      obtain ⟨hb, ht⟩ := hl
      unfold orderedInsertB
      by_cases h : le a b
      · simp only [h, if_true]
        refine List.pairwise_cons.mpr ⟨?_, List.pairwise_cons.mpr ⟨hb, ht⟩⟩
        intro x hx
        rcases List.mem_cons.mp hx with rfl | hx2
        · exact h
        · exact htrans a b x h (hb x hx2)
      · have hba : le b a = true := (htot a b).resolve_left h
        simp only [h, Bool.false_eq_true, if_false]
        refine List.pairwise_cons.mpr ⟨?_, ih ht⟩
        intro x hx
        have hmem := (orderedInsertB_perm le a t).mem_iff.mp hx
        rcases List.mem_cons.mp hmem with rfl | hx2
        · exact hba
        · exact hb x hx2

theorem insertionSortB_pairwise
    (htot : ∀ a b, le a b = true ∨ le b a = true)
    (htrans : ∀ a b c, le a b = true → le b c = true → le a c = true)
    (l : List α) :
    (insertionSortB le l).Pairwise (fun x y => le x y = true) := by
  induction l with
  | nil => simp [insertionSortB]
  | cons a t ih => exact orderedInsertB_pairwise le htot htrans a _ ih

theorem orderedInsertB_of_forall_le (a : α) (l : List α)
    (h : ∀ x ∈ l, le a x = true) : orderedInsertB le a l = a :: l := by
  cases l with
  | nil => rfl
  | cons b t =>
      have hb : le a b = true := h b (List.mem_cons_self b t)
      simp [orderedInsertB, hb]

theorem insertionSortB_eq_self (l : List α)
    (hl : l.Pairwise (fun x y => le x y = true)) : insertionSortB le l = l := by
  induction l with
  | nil => rfl
  | cons a t ih =>
      rw [List.pairwise_cons] at hl
      obtain ⟨ha, ht⟩ := hl
      show orderedInsertB le a (insertionSortB le t) = a :: t
      rw [ih ht]
      exact orderedInsertB_of_forall_le le a t ha

theorem filter_orderedInsertB_of_neg (p : α → Bool) (a : α) (l : List α)
    (hpa : p a = false) :
    (orderedInsertB le a l).filter p = l.filter p := by
  induction l with
  | nil => simp [orderedInsertB, hpa]
  | cons b t ih =>
      unfold orderedInsertB
      by_cases h : le a b
      · simp [h, List.filter_cons, hpa]
      · simp only [h, Bool.false_eq_true, if_false, List.filter_cons]
        rw [ih]

theorem filter_orderedInsertB_of_pos
    (htrans : ∀ a b c, le a b = true → le b c = true → le a c = true)
    (p : α → Bool) (a : α) (l : List α) (hpa : p a = true)
    (hl : l.Pairwise (fun x y => le x y = true)) :
    (orderedInsertB le a l).filter p = orderedInsertB le a (l.filter p) := by
  induction l with
  | nil => simp [orderedInsertB, hpa]
  | cons b t ih =>
      rw [List.pairwise_cons] at hl
      obtain ⟨hb, ht⟩ := hl
      by_cases h : le a b
      · have hall : ∀ x ∈ b :: t, le a x = true := by
          intro x hx
          rcases List.mem_cons.mp hx with rfl | hx2
          · exact h
          · exact htrans a b x h (hb x hx2)
        have hallf : ∀ x ∈ List.filter p (b :: t), le a x = true :=
          fun x hx => hall x (List.mem_of_mem_filter hx)
        rw [orderedInsertB_of_forall_le le a (b :: t) hall,
          orderedInsertB_of_forall_le le a _ hallf]
        simp [List.filter_cons, hpa]
      · rw [orderedInsertB_cons, if_neg (by simpa using h), List.filter_cons]
        by_cases hpb : p b
        · simp only [hpb, if_true]
          rw [ih ht, List.filter_cons]
          simp only [hpb, if_true]
          rw [orderedInsertB_cons, if_neg (by simpa using h)]
        · simp only [hpb, Bool.false_eq_true, if_false]
          rw [ih ht, List.filter_cons]
          simp only [hpb, Bool.false_eq_true, if_false]

theorem filter_insertionSortB
    (htot : ∀ a b, le a b = true ∨ le b a = true)
    (htrans : ∀ a b c, le a b = true → le b c = true → le a c = true)
    (p : α → Bool) (l : List α) :
    (insertionSortB le l).filter p = insertionSortB le (l.filter p) := by
  induction l with
  | nil => rfl
  | cons a t ih =>
      show (orderedInsertB le a (insertionSortB le t)).filter p = _
      by_cases hpa : p a
      · rw [filter_orderedInsertB_of_pos le htrans p a _ hpa
          (insertionSortB_pairwise le htot htrans t), ih]
        simp [List.filter_cons, hpa, insertionSortB]
      · rw [filter_orderedInsertB_of_neg le p a _ (by simpa using hpa), ih]
        simp [List.filter_cons, hpa]

end SortLemmas

theorem extLE_refl (o : Option ℚ) : extLE o o = true := by
  cases o with
  | none => rfl
  | some a => simp [extLE]

theorem extLE_total (a b : Option ℚ) : extLE a b = true ∨ extLE b a = true := by
  cases a with
  | none => cases b with
    | none => left; rfl
    | some y => right; rfl
  | some x => cases b with
    | none => left; rfl
    | some y => simpa [extLE] using le_total x y

theorem extLE_trans (a b c : Option ℚ) (hab : extLE a b = true)
    (hbc : extLE b c = true) : extLE a c = true := by
  cases c with
  | none => cases a <;> rfl
  | some z =>
      cases b with
      | none => simp [extLE] at hbc
      | some y =>
          cases a with
          | none => simp [extLE] at hab
          | some x =>
              simp only [extLE, decide_eq_true_eq] at hab hbc ⊢
              exact le_trans hab hbc

theorem recLE_total (a b : Record) : recLE a b = true ∨ recLE b a = true :=
  extLE_total (recKey a) (recKey b)

theorem recLE_trans (a b c : Record) (hab : recLE a b = true)
    (hbc : recLE b c = true) : recLE a c = true :=
  extLE_trans (recKey a) (recKey b) (recKey c) hab hbc

/-- Key identity: a quotient of rationals written on numerators and
denominators. -/
theorem div_num_den_key (x y : ℚ) :
    ((x.num : ℚ) * (y.den : ℚ)) / ((x.den : ℚ) * (y.num : ℚ)) = x / y := by
  have hxd : ((x.den : ℚ)) ≠ 0 := Nat.cast_ne_zero.mpr (Nat.pos_iff_ne_zero.mp x.pos)
  have hyd : ((y.den : ℚ)) ≠ 0 := Nat.cast_ne_zero.mpr (Nat.pos_iff_ne_zero.mp y.pos)
  by_cases h : (y.num : ℚ) = 0
  · have hy : y = 0 := Rat.num_eq_zero.mp (by exact_mod_cast h)
    rw [h, hy]
    simp
  · have hy0 : y ≠ 0 := by
      intro hy
      apply h
      rw [hy]
      simp
    have hx : (x.num : ℚ) = x * x.den := (div_eq_iff hxd).mp (Rat.num_div_den x)
    have hyv : (y.num : ℚ) = y * y.den := (div_eq_iff hyd).mp (Rat.num_div_den y)
    rw [div_eq_div_iff (mul_ne_zero hxd h) hy0, hx, hyv]
    ring

/-- `ratDiv` is ordinary division on ℚ. -/
theorem ratDiv_eq_div (a b : ℚ) : ratDiv a b = a / b := by
  unfold ratDiv
  by_cases hn : 0 ≤ b.num
  · rw [if_pos hn, Rat.mkRat_eq_div]
    have h1 : ((a.den * b.num.natAbs : ℕ) : ℚ) = (a.den : ℚ) * (b.num : ℚ) := by
      rw [Nat.cast_mul, ← Int.cast_natCast (b.num.natAbs), Int.natAbs_of_nonneg hn]
    have h2 : ((a.num * (b.den : ℤ) : ℤ) : ℚ) = (a.num : ℚ) * (b.den : ℚ) := by
      push_cast
      ring
    rw [h1, h2, div_num_den_key a b]
  · rw [if_neg hn, Rat.mkRat_eq_div]
    have hle : b.num ≤ 0 := le_of_lt (not_le.mp hn)
    have h1 : ((a.den * b.num.natAbs : ℕ) : ℚ) = (a.den : ℚ) * (-(b.num : ℚ)) := by
      rw [Nat.cast_mul, ← Int.cast_natCast (b.num.natAbs),
        Int.ofNat_natAbs_of_nonpos hle, Int.cast_neg]
    have h2 : ((-(a.num * (b.den : ℤ)) : ℤ) : ℚ) = -((a.num : ℚ) * (b.den : ℚ)) := by
      push_cast
      ring
    rw [h1, h2, show (a.den : ℚ) * -(b.num : ℚ) = -((a.den : ℚ) * (b.num : ℚ)) by ring,
      div_neg, neg_div, neg_neg, div_num_den_key a b]

/-! ## Claim C1: header role assignment -/

/-- Claim C1 (counterexample): with the header row `["товар а", "товар б"]`,
both headers contain the product keyword "товар", yet the classifier assigns
the product role to the second header (index 1), not to the first matching
header (index 0) demanded by the claim. -/
theorem c1_counterexample :
    (searchPPW ["товар а", "товар б"]).1 = some 1 ∧
      firstMatchIdx product_keywords ["товар а", "товар б"] = some 0 :=
  ⟨rfl, rfl⟩

/-- Claim C1 (amended): for every header row, each role (product, price,
weight) is assigned to the last header in column order whose lower-cased text
contains one of that role's keywords — a later matching header overrides an
earlier one — and a role with no matching header is left unassigned. -/
theorem c1_amended (headers : List String) :
    (searchPPW headers).1 = lastIdxOf (matchesRole product_keywords) headers ∧
    (searchPPW headers).2.1 = lastIdxOf (matchesRole price_keywords) headers ∧
    (searchPPW headers).2.2 = lastIdxOf (matchesRole weight_keywords) headers := by
  refine ⟨?_, ?_, ?_⟩
  · rw [searchPPW, searchLoop_fst]
    rcases h : lastIdxOf (matchesRole product_keywords) headers with _ | j <;> simp [h]
  · rw [searchPPW, searchLoop_snd]
    rcases h : lastIdxOf (matchesRole price_keywords) headers with _ | j <;> simp [h]
  · rw [searchPPW, searchLoop_trd]
    rcases h : lastIdxOf (matchesRole weight_keywords) headers with _ | j <;> simp [h]

/-! ## Claim C7: unassigned product or price role -/

/-- Claim C7: when the header row leaves the product role or the price role
unassigned, the file contributes zero records to the catalog (and the rows
are never touched, so no exception can be raised). -/
theorem c7_unassigned_roles (f : PriceFile)
    (h : (searchPPW f.headers).1 = none ∨ (searchPPW f.headers).2.1 = none) :
    processFile f = [] := by
  unfold processFile
  rcases hs : searchPPW f.headers with ⟨a, b, c⟩
  rw [hs] at h
  rcases a with _ | p
  · rfl
  · rcases b with _ | pr
    · rfl
    · rcases h with h | h <;> simp at h

/-- Witness for C7: a header row with no product or price keyword yields an
empty contribution. -/
theorem c7_witness :
    ((searchPPW ["article", "qty"]).1 = none ∨
      (searchPPW ["article", "qty"]).2.1 = none) ∧
    processFile ⟨["article", "qty"], [["x", "y"]], "price9.csv"⟩ = [] :=
  ⟨Or.inl rfl, c7_unassigned_roles ⟨["article", "qty"], [["x", "y"]], "price9.csv"⟩ (Or.inl rfl)⟩

/-! ## Claim C10: find_text on a catalog with a None product -/

/-- Claim C10: a CSV row shorter than its header produces a record whose
product is `None`; on such a catalog the query "none" matches the coerced
string `str(None).lower()`, the second filter test calls `.lower()` on the
`None` product, and `find_text` raises `AttributeError` instead of returning
a result. -/
theorem c10_attribute_error :
    findText "none" (processFile c10file) = .error .attributeError := rfl

/-! ## Claim C3: the sorted view -/

/-- Claim C3 (counterexample): the file `c3file` yields two records with
present price-per-weight values 5 and 0; the sorted view leaves them in the
order [5, 0], because the sort key treats the falsy value `0.0` like an
absent one, so the view is not ascending in `price_per_kg` (with only absent
values last) as the claim states. -/
theorem c3_counterexample :
    (loadPrices [c3file]).map Record.price_per_kg = [some 5, some 0] ∧
    chainLEB (fun a b => extLE a.price_per_kg b.price_per_kg)
      (loadPrices [c3file]) = false :=
  ⟨by decide, by decide⟩

/-- Claim C3 (amended): the sorted view orders records ascending by
`price_per_kg` with every record whose `price_per_kg` is absent or zero
treated as `+infinity` (hence placed last), ties broken by original
insertion order, and sorting is total (never errors): the view is a
permutation of the catalog, pairwise ordered by the code's key comparison
`recLE`, and records with any given key keep their original relative order. -/
theorem c3_amended (l : List Record) :
    (sortedView l).Perm l ∧
    (sortedView l).Pairwise (fun a b => recLE a b = true) ∧
    ∀ k : Option ℚ, (sortedView l).filter (fun r => recKey r == k) =
      l.filter (fun r => recKey r == k) := by
  refine ⟨insertionSortB_perm recLE l,
    insertionSortB_pairwise recLE recLE_total recLE_trans l, ?_⟩
  intro k
  rw [show sortedView l = insertionSortB recLE l from rfl,
    filter_insertionSortB recLE recLE_total recLE_trans]
  apply insertionSortB_eq_self
  apply List.pairwise_of_forall_mem_list
  intro x hx y hy
  have hkx : recKey x = k := by simpa using (List.mem_filter.mp hx).2
  have hky : recKey y = k := by simpa using (List.mem_filter.mp hy).2
  show recLE x y = true
  unfold recLE
  rw [hkx, hky]
  exact extLE_refl k

/-! ## Claim C6: find_text as a filter of the sorted view -/

/-- The empty needle is contained in every character list. -/
theorem containsSubL_nil (l : List Char) : containsSubL [] l = true := by
  cases l with
  | nil => rfl
  | cons c t => rfl

/-- On a catalog whose products are all strings, the comprehension of lines
181–182 returns exactly the records satisfying `keepPred`, in catalog
order. -/
theorem findFilter_ok (q : String) (l : List Record)
    (h : ∀ r ∈ l, r.product.isSome = true) :
    findFilter q l = .ok (l.filter (keepPred q)) := by
  induction l with
  | nil => rfl
  | cons r t ih =>
      have hr := h r (List.mem_cons_self r t)
      have ht := ih (fun x hx => h x (List.mem_cons_of_mem r hx))
      rcases hp : r.product with _ | s
      · rw [hp] at hr; simp at hr
      · simp only [findFilter, hp, pyStrOpt, List.filter_cons, keepPred]
        by_cases h1 : hasSubS (pyLower q) (pyLower s)
        · by_cases h2 : hasSubS "наименование" (pyLower s)
          · simp [h1, h2, ht]
          · simp [h1, h2, ht, Except.map]
        · simp [h1, ht]

/-- Claim C6: on a catalog whose products are all strings, `find_text(q)`
returns exactly the records whose product contains `q` case-insensitively
and whose (lower-cased) product does not contain "наименование", as the
filter of the sorted view — hence a subsequence of it preserving relative
order; and for the empty query the predicate degenerates to the
"наименование" exclusion alone, so the result is the full non-excluded
catalog in sorted order. -/
theorem c6_find_is_filter_of_sorted :
    (∀ q l, (∀ r ∈ l, r.product.isSome = true) →
      findText q l = .ok ((sortedView l).filter (keepPred q))) ∧
    (∀ r, keepPred "" r = nonExcluded r) := by
  constructor
  · intro q l h
    unfold findText
    rw [findFilter_ok q l h]
    show Except.ok (sortedView (l.filter (keepPred q))) = _
    rw [show sortedView (l.filter (keepPred q))
        = insertionSortB recLE (l.filter (keepPred q)) from rfl,
      ← filter_insertionSortB recLE recLE_total recLE_trans]
    rfl
  · intro r
    unfold keepPred nonExcluded
    rcases r.product with _ | s
    · rfl
    · have h0 : hasSubS (pyLower "") (pyLower s) = true := containsSubL_nil _
      simp [h0]

/-- Witness for C6 at a concrete catalog and query. -/
theorem c6_witness :
    (∀ r ∈ processFile c3file, r.product.isSome = true) ∧
    findText "a" (processFile c3file) =
      .ok ((sortedView (processFile c3file)).filter (keepPred "a")) :=
  ⟨by decide, (c6_find_is_filter_of_sorted.1 "a" (processFile c3file) (by decide))⟩

/-! ## Per-row processing invariants -/

/-- Shape of every record produced by `processRow`: the raw product and
price cells are stored unchanged, the weight is the parsed `weight_kg`, and
a present `price_per_kg` forces a present, strictly positive weight. -/
theorem processRow_ok_inv (pIdx prIdx : ℕ) (wIdx : Option ℕ) (row : List String)
    (fname : String) (rec : Record)
    (h : processRow pIdx prIdx wIdx row fname = .ok rec) :
    rec.product = row.get? pIdx ∧ rec.price = row.get? prIdx ∧
    rec.weight = weightKg wIdx row ∧ rec.file = fname ∧
    (rec.price_per_kg.isSome = true →
      ∃ w, weightKg wIdx row = some w ∧ 0 < w) := by
  simp only [processRow] at h
  rcases hk : weightKg wIdx row with _ | w
  · simp only [hk] at h
    injection h with h2
    subst h2
    simp [hk]
  · simp only [hk] at h
    split at h
    · injection h with h2
      subst h2
      simp [hk]
    · split at h
      · rcases hp : row.get? prIdx with _ | ps
        · simp only [hp] at h
          exact Except.noConfusion h
        · simp only [hp] at h
          rcases hv : parseFloat? ps with _ | pv
          · simp only [hv] at h
            exact Except.noConfusion h
          · simp only [hv] at h
            injection h with h2
            subst h2
            rename_i hpos
            exact ⟨rfl, rfl, rfl, rfl, fun _ => ⟨w, rfl, hpos⟩⟩
      · injection h with h2
        subst h2
        simp [hk]

/-! ## Claim C2: unparseable price cells -/

/-- Claim C2 (counterexample): in `c2file` the first row has price "abc"
(unparseable) and weight "2"; `float(price)` raises, the record is not
created, and the following well-formed row is dropped too — the whole file
contributes nothing. -/
theorem c2_counterexample :
    parseFloat? "abc" = none ∧ processFile c2file = [] :=
  ⟨by decide, by decide⟩

/-- Claim C2 (amended): a row whose price cell is present but unparseable is
still turned into a record — price retained as the raw string,
`price_per_kg` absent — provided the row's weight value is not a parsed
positive number (the price is never parsed then); but when the weight parses
to a positive number, `float(price)` raises `ValueError`, which aborts that
row and the remaining rows of the file (records already appended are kept,
per C9). -/
theorem c2_amended (pIdx prIdx : ℕ) (wIdx : Option ℕ) (row : List String)
    (fname : String) (ps : String)
    (hp : row.get? prIdx = some ps) (hbad : parseFloat? ps = none) :
    ((∀ w, weightKg wIdx row = some w → ¬ 0 < w) →
      processRow pIdx prIdx wIdx row fname =
        .ok ⟨row.get? pIdx, some ps, weightKg wIdx row, fname, none⟩) ∧
    (∀ w, weightKg wIdx row = some w → 0 < w →
      processRow pIdx prIdx wIdx row fname = .error .valueError) := by
  constructor
  · intro hw
    simp only [processRow, hp]
    rcases hk : weightKg wIdx row with _ | w
    · rfl
    · have h0 : ¬ (0:ℚ) < w := hw w hk
      by_cases hz : w = 0
      · simp [hz]
      · have hz' : (w == 0) = false := beq_eq_false_iff_ne.mpr hz
        simp [hz', h0]
  · intro w hk hpos
    have hz' : (w == 0) = false := beq_eq_false_iff_ne.mpr (ne_of_gt hpos)
    have hp' := hp
    rw [List.get?_eq_getElem?] at hp'
    simp [processRow, hp', hk, hz', hpos, hbad]

/-- Witness for C2: price cell "abc" with an empty weight cell still yields
a record with the raw price and no price-per-weight. -/
theorem c2_witness :
    (["A", "abc", ""].get? 1 = some "abc" ∧ parseFloat? "abc" = none) ∧
    processRow 0 1 (some 2) ["A", "abc", ""] "price1.csv" =
      .ok ⟨some "A", some "abc", none, "price1.csv", none⟩ :=
  ⟨⟨by decide, by decide⟩,
    (c2_amended 0 1 (some 2) ["A", "abc", ""] "price1.csv" "abc" (by decide)
        (by decide)).1
      (fun w hw => by
        rw [show weightKg (some 2) ["A", "abc", ""] = none from rfl] at hw
        exact Option.noConfusion hw)⟩

/-! ## Claim C4: rows with missing or empty product or price -/

/-- Claim C4 (counterexample): a row with an empty product cell is not
discarded: it is added to the catalog as a record whose product is the empty
string. -/
theorem c4_counterexample :
    processFile c4file = [⟨some "", some "100", none, "price3.csv", none⟩] := by
  decide

/-- All-successful rows each contribute exactly one record. -/
theorem processRows_length_of_ok (pIdx prIdx : ℕ) (wIdx : Option ℕ)
    (rows : List (List String)) (fname : String)
    (hok : ∀ r ∈ rows, isOkE (processRow pIdx prIdx wIdx r fname) = true) :
    (processRows pIdx prIdx wIdx rows fname).length = rows.length := by
  induction rows with
  | nil => rfl
  | cons r t ih =>
      have hr := hok r (List.mem_cons_self r t)
      rcases he : processRow pIdx prIdx wIdx r fname with e | rec
      · rw [he] at hr
        simp [isOkE] at hr
      · simp only [processRows, he, List.length_cons]
        rw [ih (fun x hx => hok x (List.mem_cons_of_mem r hx))]

/-- Claim C4 (amended): ingestion never filters individual rows on their
product or price cell values — only whole files whose header row leaves the
product or price role unassigned are skipped (see C7).  When the roles are
assigned, every row that does not raise becomes exactly one record, and the
record stores the raw product and price cells unchanged, an empty product
string included. -/
theorem c4_amended (pIdx prIdx : ℕ) (wIdx : Option ℕ) (rows : List (List String))
    (fname : String)
    (hok : ∀ r ∈ rows, isOkE (processRow pIdx prIdx wIdx r fname) = true) :
    (processRows pIdx prIdx wIdx rows fname).length = rows.length ∧
    ∀ row rec, processRow pIdx prIdx wIdx row fname = .ok rec →
      rec.product = row.get? pIdx ∧ rec.price = row.get? prIdx :=
  ⟨processRows_length_of_ok pIdx prIdx wIdx rows fname hok,
   fun row rec h =>
     ⟨(processRow_ok_inv pIdx prIdx wIdx row fname rec h).1,
      (processRow_ok_inv pIdx prIdx wIdx row fname rec h).2.1⟩⟩

/-- Witness for C4: the empty-product row of `c4file` is counted. -/
theorem c4_witness :
    (∀ r ∈ [["", "100"]], isOkE (processRow 0 1 none r "price3.csv") = true) ∧
    (processRows 0 1 none [["", "100"]] "price3.csv").length = 1 :=
  ⟨by decide, (c4_amended 0 1 none [["", "100"]] "price3.csv" (by decide)).1⟩

/-! ## Claim C8: weight zero or negative -/

/-- Claim C8: a row whose weight cell parses to a value `w ≤ 0` still yields
a record, with `price_per_kg` absent and no division performed (first
conjunct); and `price_per_kg` is present in a record only when its weight is
present and strictly positive (second conjunct). -/
theorem c8_weight_guard :
    (∀ (pIdx prIdx : ℕ) (wIdx : Option ℕ) (row : List String) (fname : String)
      (w : ℚ), weightKg wIdx row = some w → w ≤ 0 →
      processRow pIdx prIdx wIdx row fname =
        .ok ⟨row.get? pIdx, row.get? prIdx, some w, fname, none⟩) ∧
    (∀ (pIdx prIdx : ℕ) (wIdx : Option ℕ) (row : List String) (fname : String)
      (rec : Record), processRow pIdx prIdx wIdx row fname = .ok rec →
      rec.price_per_kg.isSome = true → ∃ w, rec.weight = some w ∧ 0 < w) := by
  constructor
  · intro pIdx prIdx wIdx row fname w hk hle
    by_cases hz : w = 0
    · simp [processRow, hk, hz]
    · have hz' : (w == 0) = false := beq_eq_false_iff_ne.mpr hz
      have hnl : ¬ (0:ℚ) < w := not_lt.mpr hle
      simp [processRow, hk, hz', hnl]
  · intro pIdx prIdx wIdx row fname rec h hsome
    obtain ⟨-, -, hw, -, himp⟩ := processRow_ok_inv pIdx prIdx wIdx row fname rec h
    obtain ⟨w, hwk, hpos⟩ := himp hsome
    exact ⟨w, by rw [hw, hwk], hpos⟩

/-- Witness for C8: weight cell "0" gives a record with no price-per-weight
and no division-by-zero fault. -/
theorem c8_witness :
    (weightKg (some 2) ["A", "100", "0"] = some 0 ∧ (0:ℚ) ≤ 0) ∧
    processRow 0 1 (some 2) ["A", "100", "0"] "price7.csv" =
      .ok ⟨some "A", some "100", some 0, "price7.csv", none⟩ :=
  ⟨⟨by decide, by decide⟩,
    c8_weight_guard.1 0 1 (some 2) ["A", "100", "0"] "price7.csv" 0 (by decide)
      (by decide)⟩

/-! ## Claim C5: the rendered table rows -/

/-- A digit character is never the decimal point. -/
theorem digitCh_ne_dot (n : ℕ) : (digitCh n == '.') = false := by
  have h : n % 10 < 10 := Nat.mod_lt _ (by decide)
  unfold digitCh
  revert h
  generalize n % 10 = m
  intro h
  interval_cases m <;> decide

/-- A string ending in a point and two non-point characters has two
characters after its last point. -/
theorem decimalsAfterDot_append (x : List Char) (d1 d2 : Char)
    (h1 : (d1 == '.') = false) (h2 : (d2 == '.') = false) :
    decimalsAfterDot ⟨x ++ ['.', d1, d2]⟩ = 2 := by
  unfold decimalsAfterDot
  show ((x ++ ['.', d1, d2]).reverse.takeWhile (fun c => !(c == '.'))).length = 2
  rw [List.reverse_append]
  show (([d2, d1, '.'] ++ x.reverse).takeWhile (fun c => !(c == '.'))).length = 2
  simp [List.takeWhile_cons, h1, h2]

/-- `formatFixed2` always renders exactly two decimal places. -/
theorem decimalsAfterDot_formatFixed2 (q : ℚ) :
    decimalsAfterDot (formatFixed2 q) = 2 := by
  unfold formatFixed2
  exact decimalsAfterDot_append _ _ _ (digitCh_ne_dot _) (digitCh_ne_dot _)

/-- `numberFrom` keeps the length of its input. -/
theorem numberFrom_length (n : ℕ) (l : List Record) :
    (numberFrom n l).length = l.length := by
  induction l generalizing n with
  | nil => rfl
  | cons r t ih => simp [numberFrom, ih]

/-- Element `i` of `numberFrom n l` is row number `n + i` built from element
`i` of `l`. -/
theorem numberFrom_get? (n i : ℕ) (l : List Record) :
    (numberFrom n l).get? i = (l.get? i).map (mkHtmlRow (n + i)) := by
  induction l generalizing n i with
  | nil => simp [numberFrom]
  | cons r t ih =>
      cases i with
      | zero => simp [numberFrom]
      | succ j =>
          show (numberFrom (n + 1) t).get? j = (t.get? j).map (mkHtmlRow (n + (j + 1)))
          rw [ih (n + 1) j]
          have : n + 1 + j = n + (j + 1) := by omega
          rw [this]

/-- Claim C5 (counterexample): the row built from price "0" and weight "2"
has a present `price_per_kg` equal to 0, yet its rendered price-per-weight
cell is the sentinel "N/A" — the sentinel is not used exactly when the value
is absent. -/
theorem c5_counterexample :
    (processFile c5file).map Record.price_per_kg = [some 0] ∧
    (exportRows (processFile c5file)).map HtmlRow.ppkCell = ["N/A"] :=
  ⟨by decide, by decide⟩

/-- Claim C5 (amended): the renderer emits one table row per record of the
catalog, numbered from 1, carrying the record's product, price, weight and
source file, with the price-per-weight cell formatted to exactly two decimal
places when `price_per_kg` is present and nonzero, and rendered as the
sentinel "N/A" when it is absent or zero. -/
theorem c5_amended :
    (∀ data : List Record, (exportRows data).length = data.length) ∧
    (∀ (data : List Record) (i : ℕ) (r : Record),
      (sortedView data).get? i = some r →
      (exportRows data).get? i = some (mkHtmlRow (i + 1) r)) ∧
    (∀ q : ℚ, ¬ q = 0 →
      formatPpk (some q) = formatFixed2 q ∧
      decimalsAfterDot (formatFixed2 q) = 2) ∧
    formatPpk none = "N/A" ∧ formatPpk (some 0) = "N/A" := by
  refine ⟨?_, ?_, ?_, rfl, rfl⟩
  · intro data
    rw [show exportRows data = numberFrom 1 (sortedView data) from rfl,
      numberFrom_length]
    exact (insertionSortB_perm recLE data).length_eq
  · intro data i r hget
    rw [show exportRows data = numberFrom 1 (sortedView data) from rfl,
      numberFrom_get?, hget]
    rw [show 1 + i = i + 1 from by omega]
    rfl
  · intro q hq
    have hz : (q == 0) = false := beq_eq_false_iff_ne.mpr hq
    exact ⟨by simp [formatPpk, hz], decimalsAfterDot_formatFixed2 q⟩

/-- Witness for C5 on the two-record catalog of `c3file`. -/
theorem c5_witness :
    ((sortedView (processFile c3file)).get? 0 =
        some ⟨some "A", some "10", some 2, "price2.csv", some 5⟩ ∧
      ¬ (5:ℚ) = 0) ∧
    (exportRows (processFile c3file)).get? 0 =
      some (mkHtmlRow 1 ⟨some "A", some "10", some 2, "price2.csv", some 5⟩) ∧
    formatPpk (some 5) = formatFixed2 5 ∧ decimalsAfterDot (formatFixed2 5) = 2 :=
  ⟨⟨by decide, by decide⟩,
    c5_amended.2.1 (processFile c3file) 0
      ⟨some "A", some "10", some 2, "price2.csv", some 5⟩ (by decide),
    c5_amended.2.2.1 5 (by decide)⟩

/-! ## Claim C9: per-file ingestion is not atomic -/

/-- Folding the per-file loop from any already-accumulated catalog. -/
theorem rawCatalog_foldl (rest : List PriceFile) (acc : List Record) :
    List.foldl (fun a f => a ++ processFile f) acc rest = acc ++ rawCatalog rest := by
  induction rest generalizing acc with
  | nil => simp [rawCatalog]
  | cons g t ih =>
      show List.foldl _ (acc ++ processFile g) t = _
      rw [ih]
      have hg : rawCatalog (g :: t) = ([] ++ processFile g) ++ rawCatalog t := by
        show List.foldl _ ([] ++ processFile g) t = _
        rw [ih]
      rw [hg]
      simp [List.append_assoc]

/-- The catalog of `f :: rest` is `f`'s contribution followed by the rest. -/
theorem rawCatalog_cons (f : PriceFile) (rest : List PriceFile) :
    rawCatalog (f :: rest) = processFile f ++ rawCatalog rest := by
  show List.foldl _ ([] ++ processFile f) rest = _
  rw [rawCatalog_foldl]
  simp

/-- The row loop stops at the first failing row, keeping the records of the
earlier rows and dropping all later rows. -/
theorem processRows_abort (pIdx prIdx : ℕ) (wIdx : Option ℕ) (fname : String)
    (rows1 : List (List String)) (bad : List String) (rows2 : List (List String))
    (hok : ∀ r ∈ rows1, isOkE (processRow pIdx prIdx wIdx r fname) = true)
    (hbad : isOkE (processRow pIdx prIdx wIdx bad fname) = false) :
    processRows pIdx prIdx wIdx (rows1 ++ bad :: rows2) fname =
      processRows pIdx prIdx wIdx rows1 fname := by
  induction rows1 with
  | nil =>
      rcases he : processRow pIdx prIdx wIdx bad fname with e | rec
      · show processRows pIdx prIdx wIdx (bad :: rows2) fname = []
        simp only [processRows, he]
      · rw [he] at hbad
        simp [isOkE] at hbad
  | cons r t ih =>
      have hr := hok r (List.mem_cons_self r t)
      rcases he : processRow pIdx prIdx wIdx r fname with e | rec
      · rw [he] at hr
        simp [isOkE] at hr
      · show processRows pIdx prIdx wIdx (r :: (t ++ bad :: rows2)) fname = _
        simp only [processRows, he]
        rw [ih (fun x hx => hok x (List.mem_cons_of_mem r hx))]

/-- Claim C9: when a row of a file raises partway through, the records of
that file appended before the failing row stay in the catalog, the rest of
that file's rows are skipped, and the remaining files are still processed. -/
theorem c9_per_file_not_atomic (hs : List String) (name : String) (p pr : ℕ)
    (wI : Option ℕ) (rows1 : List (List String)) (bad : List String)
    (rows2 : List (List String)) (rest : List PriceFile)
    (hroles : searchPPW hs = (some p, some pr, wI))
    (hok : ∀ r ∈ rows1, isOkE (processRow p pr wI r name) = true)
    (hbad : isOkE (processRow p pr wI bad name) = false) :
    rawCatalog (⟨hs, rows1 ++ bad :: rows2, name⟩ :: rest) =
      processRows p pr wI rows1 name ++ rawCatalog rest ∧
    (processRows p pr wI rows1 name).length = rows1.length := by
  constructor
  · rw [rawCatalog_cons]
    have hpf : processFile ⟨hs, rows1 ++ bad :: rows2, name⟩ =
        processRows p pr wI rows1 name := by
      simp only [processFile, hroles]
      exact processRows_abort p pr wI name rows1 bad rows2 hok hbad
    rw [hpf]
  · exact processRows_length_of_ok p pr wI rows1 name hok

/-- Witness for C9: a file whose second row has an unparseable price with a
positive weight keeps its first record, drops its third row, and a following
file is still ingested. -/
theorem c9_witness :
    (searchPPW ["товар", "цена", "вес"] = (some 0, some 1, some 2) ∧
      isOkE (processRow 0 1 (some 2) ["A", "x", "2"] "price6.csv") = false) ∧
    rawCatalog
        [⟨["товар", "цена", "вес"],
          [["B", "5", "1"], ["A", "x", "2"], ["C", "7", "1"]], "price6.csv"⟩,
         c4file] =
      processRows 0 1 (some 2) [["B", "5", "1"]] "price6.csv" ++
        rawCatalog [c4file] ∧
    (processRows 0 1 (some 2) [["B", "5", "1"]] "price6.csv").length = 1 :=
  ⟨⟨by decide, by decide⟩,
    c9_per_file_not_atomic ["товар", "цена", "вес"] "price6.csv" 0 1 (some 2)
      [["B", "5", "1"]] ["A", "x", "2"] [["C", "7", "1"]] [c4file]
      (by decide) (by decide) (by decide)⟩
